import Mathlib

/-!
Verification of `spider-util`'s Bloom filter (`src/bloom_filter.rs`).

The Rust code is shallowly embedded: `u64` values are `Nat` reduced modulo `2^64`
wherever the source wraps, fallible operations (the `%` panic on a zero modulus)
return `Option`, and the two external hash primitives the source calls —
`std::collections::hash_map::DefaultHasher` (SipHash-1-3 with a zero key) and
`seahash::hash` — are embedded from their published algorithms, since their code
lives outside this repository.
-/

namespace SpiderUtil

/-- Reduction modulo `2^64`: the wrapping arithmetic of Rust's `u64`. -/
def wrap64 (n : Nat) : Nat := n % 2 ^ 64

/-- Left rotation of a 64-bit word by `r` places (`0 < r < 64`), Rust's `u64::rotate_left`. -/
def rotl64 (x r : Nat) : Nat := wrap64 (x <<< r) ||| (x >>> (64 - r))

/-- UTF-8 encoding of one character, as Rust's `str::as_bytes` exposes it. -/
def charUtf8 (c : Char) : List Nat :=
  let n := c.toNat
  if n < 0x80 then [n]
  else if n < 0x800 then [0xC0 + n / 0x40, 0x80 + n % 0x40]
  else if n < 0x10000 then [0xE0 + n / 0x1000, 0x80 + n / 0x40 % 0x40, 0x80 + n % 0x40]
  else [0xF0 + n / 0x40000, 0x80 + n / 0x1000 % 0x40, 0x80 + n / 0x40 % 0x40, 0x80 + n % 0x40]

/-- The UTF-8 byte sequence of a string (Rust `str::as_bytes`). -/
def utf8Bytes (s : String) : List Nat := (s.data.map charUtf8).flatten

/-- Little-endian interpretation of a byte list as an unsigned integer. -/
def leWord (bs : List Nat) : Nat := bs.foldr (fun b acc => b + 0x100 * acc) 0

/-- State of the SipHash permutation: four 64-bit lanes. -/
structure SipState where
  v0 : Nat
  v1 : Nat
  v2 : Nat
  v3 : Nat

/-- One round of the SipHash permutation (`SIPROUND`; `State::sip_round` in Rust's std). -/
def sipRound (s : SipState) : SipState :=
  let a0 := wrap64 (s.v0 + s.v1)
  let b1 := Nat.xor (rotl64 s.v1 13) a0
  let a1 := rotl64 a0 32
  let c0 := wrap64 (s.v2 + s.v3)
  let d1 := Nat.xor (rotl64 s.v3 16) c0
  let a2 := wrap64 (a1 + d1)
  let d2 := Nat.xor (rotl64 d1 21) a2
  let c1 := wrap64 (c0 + b1)
  let b2 := Nat.xor (rotl64 b1 17) c1
  let c2 := rotl64 c1 32
  ⟨a2, b2, c2, d2⟩

/-- Absorption of one 8-byte message block for SipHash-1-x:
    `v3 ^= m`, one round, `v0 ^= m`. -/
def sipBlock (s : SipState) (m : Nat) : SipState :=
  let s1 := sipRound { s with v3 := Nat.xor s.v3 m }
  { s1 with v0 := Nat.xor s1.v0 m }

/-- Absorbs the full 8-byte blocks of the message, returning the state and the
    remaining tail bytes (fewer than 8). -/
def sipBlocks : SipState → List Nat → SipState × List Nat
  | s, b0 :: b1 :: b2 :: b3 :: b4 :: b5 :: b6 :: b7 :: rest =>
      sipBlocks (sipBlock s (leWord [b0, b1, b2, b3, b4, b5, b6, b7])) rest
  | s, rest => (s, rest)

/-- SipHash-1-3 of a byte string with 128-bit key `(k0, k1)`: the algorithm behind
    Rust's `std::hash::SipHasher13`, which backs `DefaultHasher`. -/
def sipHash13 (k0 k1 : Nat) (msg : List Nat) : Nat :=
  let s0 : SipState :=
    ⟨Nat.xor k0 0x736f6d6570736575, Nat.xor k1 0x646f72616e646f6d,
     Nat.xor k0 0x6c7967656e657261, Nat.xor k1 0x7465646279746573⟩
  let r := sipBlocks s0 msg
  let b := leWord r.2 + (msg.length % 0x100) * 2 ^ 56
  let s2 := sipBlock r.1 b
  let s3 := { s2 with v2 := Nat.xor s2.v2 0xff }
  let s4 := sipRound (sipRound (sipRound s3))
  Nat.xor (Nat.xor s4.v0 s4.v1) (Nat.xor s4.v2 s4.v3)

/-- The 64-bit hash produced by Rust's `DefaultHasher::new()` fed a `&str` and
    finished: SipHash-1-3 with a zero key over the string's UTF-8 bytes followed by
    the `0xFF` terminator byte that `Hasher::write_str` appends. -/
def defaultHash (s : String) : Nat := sipHash13 0 0 (utf8Bytes s ++ [0xff])

/-- The diffusion function of the `seahash` crate:
    multiply, shift-xor, multiply (all wrapping 64-bit). -/
def diffuse (x : Nat) : Nat :=
  let y := wrap64 (x * 0x6eed0e9da4d94a4f)
  let z := Nat.xor y ((y >>> 32) >>> (y >>> 60))
  wrap64 (z * 0x6eed0e9da4d94a4f)

/-- Main loop of `seahash::hash_seeded`: fold each 32-byte chunk into the four
    lanes, returning the lanes and the unconsumed tail (fewer than 32 bytes). -/
def seaChunks : Nat → Nat → Nat → Nat → List Nat → (Nat × Nat × Nat × Nat) × List Nat
  | a, b, c, d, x0 :: x1 :: x2 :: x3 :: x4 :: x5 :: x6 :: x7 ::
      y0 :: y1 :: y2 :: y3 :: y4 :: y5 :: y6 :: y7 ::
      z0 :: z1 :: z2 :: z3 :: z4 :: z5 :: z6 :: z7 ::
      w0 :: w1 :: w2 :: w3 :: w4 :: w5 :: w6 :: w7 :: rest =>
      seaChunks (diffuse (Nat.xor a (leWord [x0, x1, x2, x3, x4, x5, x6, x7])))
                (diffuse (Nat.xor b (leWord [y0, y1, y2, y3, y4, y5, y6, y7])))
                (diffuse (Nat.xor c (leWord [z0, z1, z2, z3, z4, z5, z6, z7])))
                (diffuse (Nat.xor d (leWord [w0, w1, w2, w3, w4, w5, w6, w7])))
                rest
  | a, b, c, d, rest => ((a, b, c, d), rest)

/-- Tail handling of `seahash::hash_seeded`: the remaining (at most 31) bytes are
    folded into the lanes word by word, the final partial word read little-endian
    zero-padded; each touched lane is diffused once. -/
def seaTail (a b c d : Nat) (tail : List Nat) : Nat × Nat × Nat × Nat :=
  let n := tail.length
  if n = 0 then (a, b, c, d)
  else if n ≤ 8 then (diffuse (Nat.xor a (leWord tail)), b, c, d)
  else if n ≤ 16 then
    (diffuse (Nat.xor a (leWord (tail.take 8))),
     diffuse (Nat.xor b (leWord (tail.drop 8))), c, d)
  else if n ≤ 24 then
    (diffuse (Nat.xor a (leWord (tail.take 8))),
     diffuse (Nat.xor b (leWord ((tail.drop 8).take 8))),
     diffuse (Nat.xor c (leWord (tail.drop 16))), d)
  else
    (diffuse (Nat.xor a (leWord (tail.take 8))),
     diffuse (Nat.xor b (leWord ((tail.drop 8).take 8))),
     diffuse (Nat.xor c (leWord ((tail.drop 16).take 8))),
     diffuse (Nat.xor d (leWord (tail.drop 24))))

/-- `seahash::hash_seeded`: chunk loop, tail fold, then cross-lane xor, xor of the
    total length, and one final diffusion. -/
def seaHashSeeded (k0 k1 k2 k3 : Nat) (msg : List Nat) : Nat :=
  let r := seaChunks k0 k1 k2 k3 msg
  let t := seaTail r.1.1 r.1.2.1 r.1.2.2.1 r.1.2.2.2 r.2
  diffuse (Nat.xor (Nat.xor (Nat.xor t.1 t.2.1) (Nat.xor t.2.2.1 t.2.2.2)) (wrap64 msg.length))

/-- `seahash::hash`: `hash_seeded` with the crate's fixed default seeds. -/
def seaHash (msg : List Nat) : Nat :=
  seaHashSeeded 0x16f11fe89b0d677c 0xb480a793d8e6c86c 0x6fe2e5aaf078ebc9 0x14f994a4c5259381 msg

/-- The `BloomFilter` struct of `src/bloom_filter.rs`: a packed bit vector of
    64-bit words, the configured bit capacity, and the probes-per-key count. -/
structure BloomFilter where
  bit_set : List Nat
  num_bits : Nat
  hash_functions : Nat
deriving DecidableEq

/-- Exponent of the `f64` unit-in-the-last-place in the binade of `n`, for
    `2^53 < n < 2^64`: adjacent representable doubles there differ by
    `2 ^ (bitlength n - 53)`. -/
def ulpExp (n : Nat) : Nat :=
  if n < 2 ^ 54 then 1
  else if n < 2 ^ 55 then 2
  else if n < 2 ^ 56 then 3
  else if n < 2 ^ 57 then 4
  else if n < 2 ^ 58 then 5
  else if n < 2 ^ 59 then 6
  else if n < 2 ^ 60 then 7
  else if n < 2 ^ 61 then 8
  else if n < 2 ^ 62 then 9
  else if n < 2 ^ 63 then 10
  else 11

/-- Rust's `num_bits as f64` on the u64 range: round to nearest representable
    double, ties to even. Exact for `n ≤ 2^53`; otherwise `n` is rounded to the
    nearest multiple of the binade's ulp, a tie going to the even multiple. -/
def roundF64 (n : Nat) : Nat :=
  if n ≤ 2 ^ 53 then n
  else
    let u := 2 ^ ulpExp n
    let q := n / u
    let r := n % u
    if 2 * r < u then q * u
    else if 2 * r > u then (q + 1) * u
    else (if q % 2 = 0 then q else q + 1) * u

/-- Number of words `BloomFilter::new` allocates:
    `((num_bits as f64 / 64.0).ceil() as usize).max(1)`. The cast rounds
    `num_bits` to `f64` (`roundF64`); the division by 64 and the ceiling are then
    exact in `f64` (an exponent shift of a 53-bit significand, and for quotients
    at or above `2^53` the rounded value is already a multiple of 64), and the
    `usize` cast is exact for the resulting magnitudes — so the word count is
    `⌈roundF64 num_bits / 64⌉`, clamped below by 1. -/
def bloomSize (num_bits : Nat) : Nat := max ((roundF64 num_bits + 63) / 64) 1

/-- `BloomFilter::new`: allocates `bloomSize num_bits` zero words. -/
def BloomFilter.new (num_bits : Nat) (hash_functions : Nat) : BloomFilter :=
  { bit_set := List.replicate (bloomSize num_bits) 0
    num_bits := num_bits
    hash_functions := hash_functions }

/-- `BloomFilter::get_bit_index`: `hash1` is `DefaultHasher` applied to the item,
    `hash2` is `seahash` of the item with the decimal probe index appended
    (Rust's `format!` of the two), combined as
    `hash1.wrapping_add((i as u64).wrapping_mul(hash2))` and reduced modulo
    `num_bits`. `none` models the `%`-by-zero panic when `num_bits == 0`. -/
def BloomFilter.get_bit_index (f : BloomFilter) (item : String) (i : Nat) : Option Nat :=
  let hash1 := defaultHash item
  let hash2 := seaHash (utf8Bytes (item ++ toString i))
  let combined_hash := wrap64 (hash1 + wrap64 (wrap64 i * hash2))
  if f.num_bits = 0 then none else some (combined_hash % f.num_bits)

/-- The value `get_bit_index` returns when `num_bits ≥ 1` (total form, used in
    statements and to relate states that share `num_bits`). -/
def BloomFilter.bitIndex (f : BloomFilter) (item : String) (i : Nat) : Nat :=
  wrap64 (defaultHash item + wrap64 (wrap64 i * seaHash (utf8Bytes (item ++ toString i)))) %
    f.num_bits

/-- Body of the loop in `BloomFilter::add`: set bit `index` of the packed word
    list, skipping silently when the word index fails the source's bounds check. -/
def setBit (bits : List Nat) (index : Nat) : List Nat :=
  let bucket_idx := index / 64
  let bit_idx := index % 64
  if bucket_idx < bits.length then
    bits.set bucket_idx (bits.getD bucket_idx 0 ||| 1 <<< bit_idx)
  else bits

/-- The loop of `BloomFilter::add` over probe indices `i, i+1, ...` with `n`
    probes remaining; `none` models a panic inside `get_bit_index`. -/
def addLoop (f : BloomFilter) (item : String) : List Nat → Nat → Nat → Option (List Nat)
  | bits, _, 0 => some bits
  | bits, i, n + 1 =>
    match f.get_bit_index item i with
    | none => none
    | some index => addLoop f item (setBit bits index) (i + 1) n

/-- `BloomFilter::add`. -/
def BloomFilter.add (f : BloomFilter) (item : String) : Option BloomFilter :=
  (addLoop f item f.bit_set 0 f.hash_functions).map fun bits => { f with bit_set := bits }

/-- The loop of `BloomFilter::might_contain` with `n` probes remaining starting
    at probe `i`: `false` at an out-of-range word or a zero bit, `true` once all
    probes pass. -/
def mightContainLoop (f : BloomFilter) (item : String) : Nat → Nat → Option Bool
  | _, 0 => some true
  | i, n + 1 =>
    match f.get_bit_index item i with
    | none => none
    | some index =>
      let bucket_idx := index / 64
      let bit_idx := index % 64
      if bucket_idx < f.bit_set.length then
        if f.bit_set.getD bucket_idx 0 &&& 1 <<< bit_idx = 0 then some false
        else mightContainLoop f item (i + 1) n
      else some false

/-- `BloomFilter::might_contain`. -/
def BloomFilter.might_contain (f : BloomFilter) (item : String) : Option Bool :=
  mightContainLoop f item 0 f.hash_functions

/-- The probed bit (as a `Bool`) at probe `i` of `item` in filter `f`. -/
def BloomFilter.probeBit (f : BloomFilter) (item : String) (i : Nat) : Bool :=
  Nat.testBit (f.bit_set.getD (f.bitIndex item i / 64) 0) (f.bitIndex item i % 64)

/-- Well-formedness: the word list has exactly the length `new` allocates for
    `num_bits`. It holds for every constructed filter and is preserved by `add`. -/
def BloomFilter.wf (f : BloomFilter) : Prop := f.bit_set.length = bloomSize f.num_bits

/-- Folding `add` over a list of keys (`none` models a panic partway through). -/
def addAll (f : BloomFilter) : List String → Option BloomFilter
  | [] => some f
  | x :: xs =>
    match f.add x with
    | none => none
    | some g => addAll g xs

/-- Folding `setBit` over a list of bit indices: the pure bit-state effect of the
    loop in `BloomFilter::add`. -/
def setBits (bits : List Nat) : List Nat → List Nat
  | [] => bits
  | q :: rest => setBits (setBit bits q) rest

/-- The bit positions probed for `item` by probe indices `i, i+1, ..., i+n-1`. -/
def probeList (f : BloomFilter) (item : String) (i n : Nat) : List Nat :=
  (List.range' i n).map (f.bitIndex item)

theorem roundF64_of_le {n : Nat} (h : n ≤ 2 ^ 53) : roundF64 n = n := if_pos h

theorem getD_set_self {l : List Nat} {i : Nat} (a : Nat) (h : i < l.length) :
    (l.set i a).getD i 0 = a := by
  simp [List.getD_eq_getElem?_getD, List.getElem?_set_self h]

theorem getD_set_ne {l : List Nat} {i j : Nat} (a : Nat) (h : i ≠ j) :
    (l.set i a).getD j 0 = l.getD j 0 := by
  simp [List.getD_eq_getElem?_getD, List.getElem?_set_ne h]

theorem and_shift_eq_zero_iff (w t : Nat) :
    (w &&& 1 <<< t = 0) ↔ Nat.testBit w t = false := by
  rw [Nat.one_shiftLeft, Nat.and_two_pow]
  cases h : Nat.testBit w t <;> simp [h, Nat.pos_iff_ne_zero.mp (Nat.two_pow_pos t)]

theorem setBit_length (bits : List Nat) (index : Nat) :
    (setBit bits index).length = bits.length := by
  simp only [setBit]
  split <;> simp

theorem testBit_setBit_mono {bits : List Nat} {b t : Nat} (index : Nat)
    (h : Nat.testBit (bits.getD b 0) t = true) :
    Nat.testBit ((setBit bits index).getD b 0) t = true := by
  simp only [setBit]
  split
  · by_cases hb : index / 64 = b
    · subst hb
      rw [getD_set_self _ (by assumption), Nat.testBit_or, h]
      simp
    · rw [getD_set_ne _ hb]
      exact h
  · exact h

theorem testBit_setBit_self {bits : List Nat} {index : Nat} (h : index / 64 < bits.length) :
    Nat.testBit ((setBit bits index).getD (index / 64) 0) (index % 64) = true := by
  simp only [setBit, if_pos h]
  rw [getD_set_self _ h, Nat.testBit_or, Nat.one_shiftLeft]
  simp [Nat.testBit_two_pow_self]

theorem setBit_comm (bits : List Nat) (p q : Nat) :
    setBit (setBit bits p) q = setBit (setBit bits q) p := by
  by_cases hp : p / 64 < bits.length
  · by_cases hq : q / 64 < bits.length
    · by_cases hpq : p / 64 = q / 64
      · simp only [setBit, if_pos hp, if_pos hq, hpq, List.length_set, if_pos hq,
          if_pos (hpq ▸ hp)]
        rw [getD_set_self _ hq, getD_set_self _ (hpq ▸ hq), List.set_set, List.set_set]
        congr 1
        rw [Nat.or_assoc, Nat.or_assoc, Nat.or_comm (1 <<< (p % 64))]
      · simp only [setBit, if_pos hp, if_pos hq, List.length_set, if_pos hq, if_pos hp]
        rw [getD_set_ne _ hpq, getD_set_ne _ (fun h => hpq h.symm), List.set_comm _ _ _ hpq]
    · simp only [setBit, if_pos hp, if_neg hq, List.length_set, if_neg hq]
  · by_cases hq : q / 64 < bits.length
    · simp only [setBit, if_neg hp, if_pos hq, List.length_set, if_neg hp]
    · simp only [setBit, if_neg hp, if_neg hq]

theorem setBit_absorb (bits : List Nat) (p : Nat) :
    setBit (setBit bits p) p = setBit bits p := by
  by_cases hp : p / 64 < bits.length
  · simp only [setBit, if_pos hp, List.length_set, if_pos hp]
    rw [getD_set_self _ hp, List.set_set]
    congr 1
    rw [Nat.or_assoc, Nat.or_self]
  · simp only [setBit, if_neg hp]

theorem setBits_length (l : List Nat) : ∀ bits : List Nat, (setBits bits l).length = bits.length := by
  induction l with
  | nil => intro bits; rfl
  | cons q rest ih =>
    intro bits
    rw [setBits, ih, setBit_length]

theorem setBit_setBits (l : List Nat) :
    ∀ (bits : List Nat) (q : Nat), setBit (setBits bits l) q = setBits (setBit bits q) l := by
  induction l with
  | nil => intro bits q; rfl
  | cons p rest ih =>
    intro bits q
    rw [setBits, ih, setBit_comm, setBits]

theorem setBits_comm (l1 : List Nat) :
    ∀ (bits : List Nat) (l2 : List Nat),
      setBits (setBits bits l1) l2 = setBits (setBits bits l2) l1 := by
  induction l1 with
  | nil => intro bits l2; rfl
  | cons p rest ih =>
    intro bits l2
    rw [setBits, ih, setBits, setBit_setBits]

theorem setBits_idem (l : List Nat) :
    ∀ bits : List Nat, setBits (setBits bits l) l = setBits bits l := by
  induction l with
  | nil => intro bits; rfl
  | cons p rest ih =>
    intro bits
    rw [setBits, setBits, setBit_setBits, setBit_absorb, ih]

theorem testBit_setBits_mono (l : List Nat) :
    ∀ {bits : List Nat} {b t : Nat}, Nat.testBit (bits.getD b 0) t = true →
      Nat.testBit ((setBits bits l).getD b 0) t = true := by
  induction l with
  | nil => intro bits b t h; exact h
  | cons q rest ih =>
    intro bits b t h
    exact ih (testBit_setBit_mono q h)

theorem testBit_setBits_of_mem (l : List Nat) :
    ∀ {bits : List Nat} {q : Nat}, q ∈ l → q / 64 < bits.length →
      Nat.testBit ((setBits bits l).getD (q / 64) 0) (q % 64) = true := by
  induction l with
  | nil => intro _ _ h; cases h
  | cons p rest ih =>
    intro bits q hq hlen
    rcases List.mem_cons.mp hq with h | h
    · subst h
      exact testBit_setBits_mono rest (testBit_setBit_self hlen)
    · exact ih h (by rw [setBit_length]; exact hlen)

theorem get_bit_index_eq (f : BloomFilter) (item : String) (i : Nat) (hb : 1 ≤ f.num_bits) :
    f.get_bit_index item i = some (f.bitIndex item i) := by
  have h0 : f.num_bits ≠ 0 := by omega
  simp [BloomFilter.get_bit_index, BloomFilter.bitIndex, h0]

theorem bitIndex_lt (f : BloomFilter) (item : String) (i : Nat) (hb : 1 ≤ f.num_bits) :
    f.bitIndex item i < f.num_bits :=
  Nat.mod_lt _ (by omega)

theorem bitIndex_congr {f g : BloomFilter} (item : String) (i : Nat)
    (h : f.num_bits = g.num_bits) : f.bitIndex item i = g.bitIndex item i := by
  simp [BloomFilter.bitIndex, h]

theorem probeList_congr {f g : BloomFilter} (item : String) (i n : Nat)
    (h : f.num_bits = g.num_bits) : probeList f item i n = probeList g item i n := by
  simp only [probeList]
  exact List.map_congr_left fun j _ => bitIndex_congr item j h

theorem bitIndex_div_lt (f : BloomFilter) (item : String) (i : Nat)
    (hwf : f.wf) (hb : 1 ≤ f.num_bits) (hsmall : f.num_bits ≤ 2 ^ 53) :
    f.bitIndex item i / 64 < f.bit_set.length := by
  have h := bitIndex_lt f item i hb
  rw [BloomFilter.wf] at hwf
  rw [hwf, bloomSize, roundF64_of_le hsmall]
  refine lt_of_lt_of_le ?_ (le_max_left _ _)
  omega

theorem addLoop_eq (f : BloomFilter) (item : String) (hb : 1 ≤ f.num_bits) :
    ∀ (n i : Nat) (bits : List Nat),
      addLoop f item bits i n = some (setBits bits (probeList f item i n)) := by
  intro n
  induction n with
  | zero => intro i bits; simp [addLoop, probeList, List.range', setBits]
  | succ n ih =>
    intro i bits
    rw [addLoop, get_bit_index_eq f item i hb]
    show addLoop f item (setBit bits (f.bitIndex item i)) (i + 1) n = _
    rw [ih (i + 1) (setBit bits (f.bitIndex item i))]
    rfl

theorem add_eq (f : BloomFilter) (item : String) (hb : 1 ≤ f.num_bits) :
    f.add item =
      some ⟨setBits f.bit_set (probeList f item 0 f.hash_functions),
            f.num_bits, f.hash_functions⟩ := by
  rw [BloomFilter.add, addLoop_eq f item hb]
  rfl

theorem add_wf {f g : BloomFilter} {item : String} (hwf : f.wf) (hb : 1 ≤ f.num_bits)
    (h : f.add item = some g) : g.wf := by
  rw [add_eq f item hb] at h
  cases h
  rw [BloomFilter.wf] at hwf ⊢
  simpa [setBits_length] using hwf

theorem mightContainLoop_eq (f : BloomFilter) (item : String) (hb : 1 ≤ f.num_bits) :
    ∀ n i : Nat, mightContainLoop f item i n =
      some (decide (∀ j, j < n → f.probeBit item (i + j) = true)) := by
  intro n
  induction n with
  | zero => intro i; simp [mightContainLoop]
  | succ n ih =>
    intro i
    rw [mightContainLoop, get_bit_index_eq f item i hb]
    show (if f.bitIndex item i / 64 < f.bit_set.length then
        if f.bit_set.getD (f.bitIndex item i / 64) 0 &&& 1 <<< (f.bitIndex item i % 64) = 0
        then some false else mightContainLoop f item (i + 1) n
      else some false) = _
    by_cases hrange : f.bitIndex item i / 64 < f.bit_set.length
    · rw [if_pos hrange]
      by_cases hbit : f.bit_set.getD (f.bitIndex item i / 64) 0 &&&
          1 <<< (f.bitIndex item i % 64) = 0
      · rw [if_pos hbit]
        have hfalse : f.probeBit item i = false := (and_shift_eq_zero_iff _ _).mp hbit
        have : ¬ (∀ j, j < n + 1 → f.probeBit item (i + j) = true) := by
          intro h
          have := h 0 (Nat.succ_pos n)
          rw [Nat.add_zero] at this
          rw [this] at hfalse
          cases hfalse
        simp [this]
      · rw [if_neg hbit, ih (i + 1)]
        have htrue : f.probeBit item i = true := by
          rw [BloomFilter.probeBit]
          rcases Bool.eq_false_or_eq_true
              ((f.bit_set.getD (f.bitIndex item i / 64) 0).testBit (f.bitIndex item i % 64))
            with h | h
          · exact h
          · exact absurd ((and_shift_eq_zero_iff _ _).mpr h) hbit
        congr 1
        rw [decide_eq_decide]
        constructor
        · intro h j hj
          match j with
          | 0 => rw [Nat.add_zero]; exact htrue
          | j + 1 =>
            have := h j (by omega)
            rwa [show i + 1 + j = i + (j + 1) by omega] at this
        · intro h j hj
          have := h (j + 1) (by omega)
          rwa [show i + (j + 1) = i + 1 + j by omega] at this
    · rw [if_neg hrange]
      have hfalse : f.probeBit item i = false := by
        rw [BloomFilter.probeBit, List.getD_eq_getElem?_getD,
          List.getElem?_eq_none (by omega), Option.getD_none]
        exact Nat.zero_testBit _
      have : ¬ (∀ j, j < n + 1 → f.probeBit item (i + j) = true) := by
        intro h
        have := h 0 (Nat.succ_pos n)
        rw [Nat.add_zero] at this
        rw [this] at hfalse
        cases hfalse
      simp [this]

theorem might_contain_eq (f : BloomFilter) (item : String) (hb : 1 ≤ f.num_bits) :
    f.might_contain item =
      some (decide (∀ j, j < f.hash_functions → f.probeBit item j = true)) := by
  rw [BloomFilter.might_contain, mightContainLoop_eq f item hb]
  simp

theorem add_sets_probes {f g : BloomFilter} {item : String} (hwf : f.wf) (hb : 1 ≤ f.num_bits)
    (hsmall : f.num_bits ≤ 2 ^ 53) (h : f.add item = some g) :
    ∀ i, i < f.hash_functions → g.probeBit item i = true := by
  rw [add_eq f item hb] at h
  cases h
  intro i hi
  have hmem : f.bitIndex item i ∈ probeList f item 0 f.hash_functions := by
    rw [probeList]
    exact List.mem_map_of_mem _ (List.mem_range'_1.mpr ⟨Nat.zero_le i, by omega⟩)
  have hidx : (⟨setBits f.bit_set (probeList f item 0 f.hash_functions),
      f.num_bits, f.hash_functions⟩ : BloomFilter).bitIndex item i = f.bitIndex item i :=
    bitIndex_congr item i rfl
  rw [BloomFilter.probeBit, hidx]
  exact testBit_setBits_of_mem _ hmem (bitIndex_div_lt f item i hwf hb hsmall)

theorem addAll_mono (l : List String) :
    ∀ f : BloomFilter, 1 ≤ f.num_bits →
      ∃ g : BloomFilter, addAll f l = some g ∧ g.num_bits = f.num_bits ∧
        g.hash_functions = f.hash_functions ∧ g.bit_set.length = f.bit_set.length ∧
        ∀ b t : Nat, Nat.testBit (f.bit_set.getD b 0) t = true →
          Nat.testBit (g.bit_set.getD b 0) t = true := by
  induction l with
  | nil => intro f hb; exact ⟨f, rfl, rfl, rfl, rfl, fun _ _ h => h⟩
  | cons y ys ih =>
    intro f hb
    have hadd := add_eq f y hb
    obtain ⟨g, hg, hnb, hhf, hlen, hmono⟩ :=
      ih ⟨setBits f.bit_set (probeList f y 0 f.hash_functions), f.num_bits, f.hash_functions⟩ hb
    refine ⟨g, ?_, hnb, hhf, ?_, ?_⟩
    · rw [addAll, hadd]
      exact hg
    · rw [hlen]
      exact setBits_length _ _
    · intro b t h
      exact hmono b t (testBit_setBits_mono _ h)

theorem add_add_comm (f : BloomFilter) (x y : String) (hb : 1 ≤ f.num_bits) :
    (f.add x).bind (fun g => g.add y) = (f.add y).bind (fun g => g.add x) := by
  rw [add_eq f x hb, add_eq f y hb, Option.some_bind, Option.some_bind,
    add_eq ⟨setBits f.bit_set (probeList f x 0 f.hash_functions),
      f.num_bits, f.hash_functions⟩ y hb,
    add_eq ⟨setBits f.bit_set (probeList f y 0 f.hash_functions),
      f.num_bits, f.hash_functions⟩ x hb]
  have hx : probeList ⟨setBits f.bit_set (probeList f y 0 f.hash_functions),
      f.num_bits, f.hash_functions⟩ x 0 f.hash_functions = probeList f x 0 f.hash_functions :=
    probeList_congr x 0 f.hash_functions rfl
  have hy : probeList ⟨setBits f.bit_set (probeList f x 0 f.hash_functions),
      f.num_bits, f.hash_functions⟩ y 0 f.hash_functions = probeList f y 0 f.hash_functions :=
    probeList_congr y 0 f.hash_functions rfl
  rw [hx, hy, setBits_comm]

theorem addAll_perm {l1 l2 : List String} (hp : l1.Perm l2) :
    ∀ f : BloomFilter, 1 ≤ f.num_bits → addAll f l1 = addAll f l2 := by
  induction hp with
  | nil => intro f _; rfl
  | cons x h ih =>
    intro f hb
    rw [addAll, addAll, add_eq f x hb]
    exact ih _ hb
  | swap x y l =>
    intro f hb
    rw [addAll, addAll, add_eq f y hb, add_eq f x hb]
    show addAll _ (x :: l) = addAll _ (y :: l)
    rw [addAll, addAll,
      add_eq ⟨setBits f.bit_set (probeList f y 0 f.hash_functions),
        f.num_bits, f.hash_functions⟩ x hb,
      add_eq ⟨setBits f.bit_set (probeList f x 0 f.hash_functions),
        f.num_bits, f.hash_functions⟩ y hb]
    have hx : probeList ⟨setBits f.bit_set (probeList f y 0 f.hash_functions),
        f.num_bits, f.hash_functions⟩ x 0 f.hash_functions = probeList f x 0 f.hash_functions :=
      probeList_congr x 0 f.hash_functions rfl
    have hy : probeList ⟨setBits f.bit_set (probeList f x 0 f.hash_functions),
        f.num_bits, f.hash_functions⟩ y 0 f.hash_functions = probeList f y 0 f.hash_functions :=
      probeList_congr y 0 f.hash_functions rfl
    rw [hx, hy, setBits_comm]
  | trans h1 h2 ih1 ih2 =>
    intro f hb
    rw [ih1 f hb, ih2 f hb]

theorem wf_new (n k : Nat) : (BloomFilter.new n k).wf := by
  simp [BloomFilter.wf, BloomFilter.new]

theorem addLoop_length (f : BloomFilter) (item : String) :
    ∀ (n i : Nat) (bits bs : List Nat),
      addLoop f item bits i n = some bs → bs.length = bits.length := by
  intro n
  induction n with
  | zero =>
    intro i bits bs h
    rw [addLoop] at h
    cases h
    rfl
  | succ n ih =>
    intro i bits bs h
    rw [addLoop] at h
    cases hidx : f.get_bit_index item i with
    | none => rw [hidx] at h; cases h
    | some index =>
      rw [hidx] at h
      have := ih (i + 1) (setBit bits index) bs h
      rw [this, setBit_length]

theorem add_components {f g : BloomFilter} {x : String} (h : f.add x = some g) :
    g.bit_set.length = f.bit_set.length ∧ g.num_bits = f.num_bits ∧
      g.hash_functions = f.hash_functions := by
  rw [BloomFilter.add] at h
  cases hL : addLoop f x f.bit_set 0 f.hash_functions with
  | none => rw [hL] at h; cases h
  | some bs =>
    rw [hL] at h
    cases h
    exact ⟨addLoop_length f x f.hash_functions 0 f.bit_set bs hL, rfl, rfl⟩

theorem mod64_mod63 (n : Nat) : n % 2 ^ 64 % 2 ^ 63 = n % 2 ^ 63 :=
  Nat.mod_mod_of_dvd n (Nat.pow_dvd_pow 2 (by omega))

theorem mod63_add_right (A B : Nat) : (A + B % 2 ^ 64) % 2 ^ 63 = (A + B) % 2 ^ 63 := by
  conv_rhs => rw [Nat.add_mod, ← mod64_mod63 B, ← Nat.add_mod]

theorem mod64_mod63L (n : Nat) :
    n % 18446744073709551616 % 9223372036854775808 = n % 9223372036854775808 :=
  mod64_mod63 n

theorem mod63_add_rightL (A B : Nat) :
    (A + B % 18446744073709551616) % 9223372036854775808 =
      (A + B) % 9223372036854775808 :=
  mod63_add_right A B

/-- C1 counterexample: a false negative immediately after `add`. At
    `num_bits = defaultHash "a" + 1` (above `2^53`) the `f64` cast rounds the word
    count down, key `"a"`'s sole probe position (its own hash) falls past the
    allocated words, `add` silently skips the bit, and `might_contain` then
    answers `false` for the key just added. -/
theorem no_false_negatives_cex :
    (BloomFilter.new 8186225505942432244 1).add "a" =
      some (BloomFilter.new 8186225505942432244 1) ∧
    (BloomFilter.new 8186225505942432244 1).might_contain "a" = some false := by
  have hidx : (BloomFilter.new 8186225505942432244 1).get_bit_index "a" 0 =
      some 8186225505942432243 := by decide
  have hsize : bloomSize 8186225505942432244 = 127909773530350496 := by decide
  have hlen : (BloomFilter.new 8186225505942432244 1).bit_set.length =
      127909773530350496 := by
    show (List.replicate (bloomSize 8186225505942432244) 0).length = 127909773530350496
    rw [List.length_replicate, hsize]
  have hsb : setBit (BloomFilter.new 8186225505942432244 1).bit_set
      8186225505942432243 = (BloomFilter.new 8186225505942432244 1).bit_set := by
    simp only [setBit, hlen]
    rw [if_neg (by decide)]
  constructor
  · show (addLoop (BloomFilter.new 8186225505942432244 1) "a"
        (BloomFilter.new 8186225505942432244 1).bit_set 0 1).map
          (fun bits => { BloomFilter.new 8186225505942432244 1 with bit_set := bits }) =
      some (BloomFilter.new 8186225505942432244 1)
    rw [addLoop, hidx]
    show (addLoop (BloomFilter.new 8186225505942432244 1) "a"
        (setBit (BloomFilter.new 8186225505942432244 1).bit_set 8186225505942432243)
        1 0).map
          (fun bits => { BloomFilter.new 8186225505942432244 1 with bit_set := bits }) = _
    rw [hsb, addLoop]
    rfl
  · show mightContainLoop (BloomFilter.new 8186225505942432244 1) "a" 0 1 = some false
    rw [mightContainLoop, hidx]
    show (if 8186225505942432243 / 64 <
        (BloomFilter.new 8186225505942432244 1).bit_set.length then
        if (BloomFilter.new 8186225505942432244 1).bit_set.getD
            (8186225505942432243 / 64) 0 &&& 1 <<< (8186225505942432243 % 64) = 0
        then some false
        else mightContainLoop (BloomFilter.new 8186225505942432244 1) "a" 1 0
      else some false) = some false
    rw [hlen, if_neg (by decide)]

/-- C1 amended: no false negatives on well-formed filters whose `num_bits` is at
    most `2^53` (the range where the `f64` word count is the exact ceiling and all
    probes are in range) with `hash_count ≥ 1`: `add x` succeeds, any further adds
    succeed, and `might_contain x` then returns `true`. Beyond `2^53` a probe can
    fall past the rounded-down allocation and be lost (see the counterexample). -/
theorem add_no_false_negatives (f : BloomFilter) (x : String) (ys : List String)
    (hwf : f.wf) (hb : 1 ≤ f.num_bits) (hsmall : f.num_bits ≤ 2 ^ 53)
    (hk : 1 ≤ f.hash_functions) :
    ∃ g h : BloomFilter, f.add x = some g ∧ addAll g ys = some h ∧
      h.might_contain x = some true := by
  have hadd := add_eq f x hb
  have hgprobes := add_sets_probes hwf hb hsmall hadd
  obtain ⟨h, hh, hnb, hhf, hlen, hmono⟩ := addAll_mono ys
    ⟨setBits f.bit_set (probeList f x 0 f.hash_functions), f.num_bits, f.hash_functions⟩ hb
  refine ⟨_, h, hadd, hh, ?_⟩
  rw [might_contain_eq h x (by rw [hnb]; exact hb)]
  have hall : ∀ j, j < h.hash_functions → h.probeBit x j = true := by
    intro j hj
    have hj' : j < f.hash_functions := by rw [hhf] at hj; exact hj
    have hgp := hgprobes j hj'
    rw [BloomFilter.probeBit] at hgp ⊢
    rw [bitIndex_congr x j hnb]
    exact hmono _ _ hgp
  rw [decide_eq_true hall]

/-- C1 witness: instantiates the amended no-false-negatives theorem at the
    constructed filter `new 64 2`, key `"key"`, and one further insertion. -/
theorem add_no_false_negatives_witness :
    ∃ g h : BloomFilter, (BloomFilter.new 64 2).add "key" = some g ∧
      addAll g ["other"] = some h ∧ h.might_contain "key" = some true :=
  add_no_false_negatives (BloomFilter.new 64 2) "key" ["other"] (wf_new 64 2)
    (by decide) (by decide) (by decide)

/-- C4 counterexample: the claimed dead bounds check is reachable. On the
    constructed filter with `num_bits = defaultHash "a" + 1` (above `2^53`, where
    the `f64` cast rounds the word count down), key `"a"`'s probe 0 is defined yet
    its word index is not below `bit_set.length`. -/
theorem probes_in_range_cex :
    1 ≤ (BloomFilter.new 8186225505942432244 1).num_bits ∧
    (BloomFilter.new 8186225505942432244 1).get_bit_index "a" 0 =
      some 8186225505942432243 ∧
    ¬ (8186225505942432243 / 64 < (BloomFilter.new 8186225505942432244 1).bit_set.length) := by
  refine ⟨by decide, by decide, ?_⟩
  have hsize : bloomSize 8186225505942432244 = 127909773530350496 := by decide
  have hlen2 : (BloomFilter.new 8186225505942432244 1).bit_set.length =
      127909773530350496 := by
    show (List.replicate (bloomSize 8186225505942432244) 0).length = 127909773530350496
    rw [List.length_replicate, hsize]
  rw [hlen2]
  decide

/-- C4 amended: under `num_bits ≥ 1` every probe position is defined and lies below
    `num_bits`, and `add` and `might_contain` return values for every key (they
    never fail); the word index additionally lies below `bit_set.length` — the
    bounds checks are dead — on well-formed filters whose `num_bits` is at most
    `2^53`, the range where the `f64` word count is the exact ceiling. -/
theorem probes_in_range_total (f : BloomFilter) (x : String) (hb : 1 ≤ f.num_bits) :
    (∀ i : Nat, f.get_bit_index x i = some (f.bitIndex x i) ∧
        f.bitIndex x i < f.num_bits) ∧
    (∃ g, f.add x = some g) ∧ (∃ b, f.might_contain x = some b) ∧
    (f.wf → f.num_bits ≤ 2 ^ 53 →
      ∀ i : Nat, f.bitIndex x i / 64 < f.bit_set.length) :=
  ⟨fun i => ⟨get_bit_index_eq f x i hb, bitIndex_lt f x i hb⟩,
   ⟨_, add_eq f x hb⟩, ⟨_, might_contain_eq f x hb⟩,
   fun hwf hsmall i => bitIndex_div_lt f x i hwf hb hsmall⟩

/-- C4 witness: instantiates the amended totality theorem at `new 640 5` and key
    `"k"`, discharging well-formedness and the `2^53` bound. -/
theorem probes_in_range_total_witness :
    (∀ i : Nat, (BloomFilter.new 640 5).bitIndex "k" i / 64 <
        (BloomFilter.new 640 5).bit_set.length) ∧
    (∃ g, (BloomFilter.new 640 5).add "k" = some g) ∧
    (∃ b, (BloomFilter.new 640 5).might_contain "k" = some b) :=
  ⟨(probes_in_range_total (BloomFilter.new 640 5) "k" (by decide)).2.2.2
      (wf_new 640 5) (by decide),
   (probes_in_range_total (BloomFilter.new 640 5) "k" (by decide)).2.1,
   (probes_in_range_total (BloomFilter.new 640 5) "k" (by decide)).2.2.1⟩

/-- C5: membership-test semantics. On any filter with `num_bits ≥ 1`,
    `might_contain` returns `false` exactly when some probe in `0..hash_count`
    reads a zero bit, and `true` exactly when all probed bits are one (a position
    beyond the allocated words reads bit 0, matching the source's definite-negative
    return there). -/
theorem might_contain_iff (f : BloomFilter) (x : String) (hb : 1 ≤ f.num_bits) :
    (f.might_contain x = some false ↔
      ∃ i, i < f.hash_functions ∧ f.probeBit x i = false) ∧
    (f.might_contain x = some true ↔
      ∀ i, i < f.hash_functions → f.probeBit x i = true) := by
  rw [might_contain_eq f x hb]
  constructor
  · constructor
    · intro h
      have hd := Option.some.inj h
      have hnot : ¬ (∀ j, j < f.hash_functions → f.probeBit x j = true) := by
        intro hP
        rw [decide_eq_true hP] at hd
        cases hd
      push_neg at hnot
      obtain ⟨i, hi, hbit⟩ := hnot
      exact ⟨i, hi, by simpa using hbit⟩
    · rintro ⟨i, hi, hbit⟩
      have hnot : ¬ (∀ j, j < f.hash_functions → f.probeBit x j = true) := by
        intro hP
        rw [hP i hi] at hbit
        cases hbit
      rw [decide_eq_false hnot]
  · constructor
    · intro h
      exact of_decide_eq_true (Option.some.inj h)
    · intro hP
      rw [decide_eq_true hP]

/-- C5 witness: instantiates the membership-semantics theorem at `new 128 3`
    and key `"url"`. -/
theorem might_contain_iff_witness :
    ((BloomFilter.new 128 3).might_contain "url" = some false ↔
      ∃ i, i < (BloomFilter.new 128 3).hash_functions ∧
        (BloomFilter.new 128 3).probeBit "url" i = false) ∧
    ((BloomFilter.new 128 3).might_contain "url" = some true ↔
      ∀ i, i < (BloomFilter.new 128 3).hash_functions →
        (BloomFilter.new 128 3).probeBit "url" i = true) :=
  might_contain_iff (BloomFilter.new 128 3) "url" (by decide)

/-- C6: idempotence of insertion. With `num_bits ≥ 1`, adding the same key twice
    in succession yields exactly the state of adding it once. -/
theorem add_idempotent (f : BloomFilter) (x : String) (hb : 1 ≤ f.num_bits) :
    (f.add x).bind (fun g => g.add x) = f.add x := by
  rw [add_eq f x hb, Option.some_bind,
    add_eq ⟨setBits f.bit_set (probeList f x 0 f.hash_functions),
      f.num_bits, f.hash_functions⟩ x hb]
  have hx : probeList ⟨setBits f.bit_set (probeList f x 0 f.hash_functions),
      f.num_bits, f.hash_functions⟩ x 0 f.hash_functions = probeList f x 0 f.hash_functions :=
    probeList_congr x 0 f.hash_functions rfl
  rw [hx, setBits_idem]

/-- C6 witness: instantiates idempotence at `new 1 1` and key `"x"`. -/
theorem add_idempotent_witness :
    ((BloomFilter.new 1 1).add "x").bind (fun g => g.add "x") =
      (BloomFilter.new 1 1).add "x" :=
  add_idempotent (BloomFilter.new 1 1) "x" (by decide)

/-- C7: insertion-order independence. With `num_bits ≥ 1`, adding any permutation
    of a key list yields the same final state (hence the same result for every
    subsequent `might_contain`), and any two adds commute pairwise. -/
theorem add_order_independent (f : BloomFilter) (hb : 1 ≤ f.num_bits) :
    (∀ l1 l2 : List String, l1.Perm l2 → addAll f l1 = addAll f l2) ∧
    (∀ (l1 l2 : List String) (key : String), l1.Perm l2 →
      (addAll f l1).bind (fun g => g.might_contain key) =
        (addAll f l2).bind (fun g => g.might_contain key)) ∧
    (∀ x y : String,
      (f.add x).bind (fun g => g.add y) = (f.add y).bind (fun g => g.add x)) :=
  ⟨fun _ _ hp => addAll_perm hp f hb,
   fun _ _ _ hp => by rw [addAll_perm hp f hb],
   fun x y => add_add_comm f x y hb⟩

/-- C7 witness: instantiates order independence at `new 64 2` for a two-key swap. -/
theorem add_order_independent_witness :
    ((BloomFilter.new 64 2).add "a").bind (fun g => g.add "b") =
      ((BloomFilter.new 64 2).add "b").bind (fun g => g.add "a") :=
  (add_order_independent (BloomFilter.new 64 2) (by decide)).2.2 "a" "b"

/-- C2 counterexample: constructing with `num_bits == 0` is NOT rejected — `new 0 5`
    silently returns the instance with one zero word, and the modulo step of
    probe-position generation is then undefined on it (`get_bit_index` has no value,
    modelling the division-by-zero panic). -/
theorem new_zero_bits_cex :
    BloomFilter.new 0 5 = ⟨[0], 0, 5⟩ ∧
      (BloomFilter.new 0 5).get_bit_index "x" 0 = none :=
  ⟨rfl, rfl⟩

/-- C2 amended: `new 0 k` succeeds silently (one zero word, `num_bits = 0`); the
    failure surfaces only at use time, where `get_bit_index` — and hence `add` and
    `might_contain` whenever `hash_count ≥ 1` — hits the undefined modulo (a panic,
    modelled as `none`). No construction-time rejection exists. -/
theorem new_zero_bits_behavior (k : Nat) (item : String) (i : Nat) :
    (BloomFilter.new 0 k).num_bits = 0 ∧
    (BloomFilter.new 0 k).bit_set = [0] ∧
    (BloomFilter.new 0 k).get_bit_index item i = none ∧
    (1 ≤ k → (BloomFilter.new 0 k).add item = none ∧
      (BloomFilter.new 0 k).might_contain item = none) := by
  refine ⟨rfl, rfl, rfl, ?_⟩
  intro hk
  match k, hk with
  | k' + 1, _ => exact ⟨rfl, rfl⟩

/-- C2 amended witness: at `k = 1`, both operations on `new 0 1` fail. -/
theorem new_zero_bits_behavior_witness :
    (BloomFilter.new 0 1).add "x" = none ∧
      (BloomFilter.new 0 1).might_contain "x" = none :=
  (new_zero_bits_behavior 1 "x" 0).2.2.2 (by decide)

/-- C3 counterexample: no pair of hash functions of the key alone can reproduce the
    probe positions as `(Ha key + i * Hb key) mod num_bits` (wrapping 64-bit): at
    key `"x"` and `num_bits = 2^63` the first three positions are not in arithmetic
    progression modulo `2^63`, which the claimed form forces. -/
theorem double_hashing_claim_cex :
    ¬ ∃ Ha Hb : String → Nat, ∀ (key : String) (m i k : Nat), 1 ≤ m → i < k →
      (BloomFilter.new m k).get_bit_index key i =
        some (wrap64 (Ha key + wrap64 (i * Hb key)) % m) := by
  rintro ⟨Ha, Hb, h⟩
  have c0 : (BloomFilter.new (2 ^ 63) 3).get_bit_index "x" 0 =
      some 8312289520117458465 := by decide
  have c1 : (BloomFilter.new (2 ^ 63) 3).get_bit_index "x" 1 =
      some 1790354329716824306 := by decide
  have c2 : (BloomFilter.new (2 ^ 63) 3).get_bit_index "x" 2 =
      some 8615662264251046703 := by decide
  have e0 := h "x" (2 ^ 63) 0 3 (by norm_num) (by norm_num)
  have e1 := h "x" (2 ^ 63) 1 3 (by norm_num) (by norm_num)
  have e2 := h "x" (2 ^ 63) 2 3 (by norm_num) (by norm_num)
  have hA : Ha "x" % 2 ^ 63 = 8312289520117458465 := by
    have := Option.some.inj (e0.symm.trans c0)
    simpa [wrap64, mod64_mod63, mod64_mod63L] using this
  have hAB : (Ha "x" + Hb "x") % 2 ^ 63 = 1790354329716824306 := by
    have := Option.some.inj (e1.symm.trans c1)
    simpa [wrap64, mod64_mod63, mod64_mod63L, mod63_add_right, mod63_add_rightL] using this
  have hAB2 : (Ha "x" + 2 * Hb "x") % 2 ^ 63 = 8615662264251046703 := by
    have := Option.some.inj (e2.symm.trans c2)
    simpa [wrap64, mod64_mod63, mod64_mod63L, mod63_add_right, mod63_add_rightL] using this
  have hkey : ((8312289520117458465 : Nat) + 8615662264251046703) % 2 ^ 63 =
      ((1790354329716824306 : Nat) + 1790354329716824306) % 2 ^ 63 := by
    rw [← hA, ← hAB, ← hAB2, ← Nat.add_mod, ← Nat.add_mod]
    congr 1
    omega
  have hne : ((8312289520117458465 : Nat) + 8615662264251046703) % 2 ^ 63 ≠
      ((1790354329716824306 : Nat) + 1790354329716824306) % 2 ^ 63 := by decide
  exact hne hkey

/-- C3 amended: the probe position is `(h1 + i * h2) mod num_bits` with wrapping
    64-bit arithmetic, where `h1` (DefaultHasher) depends on the key alone but `h2`
    is seahash of the key with the decimal probe index appended — it depends on `i`,
    so each probe performs a fresh pair of hash computations rather than reusing two
    hashes of the key alone. -/
theorem double_hashing_formula (f : BloomFilter) (key : String) (i : Nat)
    (hb : 1 ≤ f.num_bits) :
    f.get_bit_index key i =
      some (wrap64 (defaultHash key +
        wrap64 (wrap64 i * seaHash (utf8Bytes (key ++ toString i)))) % f.num_bits) :=
  get_bit_index_eq f key i hb

/-- C3 amended witness: instantiates the probe-formula theorem at `new 4 3`,
    key `"x"`, probe 1. -/
theorem double_hashing_formula_witness :
    (BloomFilter.new 4 3).get_bit_index "x" 1 =
      some (wrap64 (defaultHash "x" +
        wrap64 (wrap64 1 * seaHash (utf8Bytes ("x" ++ toString 1)))) %
          (BloomFilter.new 4 3).num_bits) :=
  double_hashing_formula (BloomFilter.new 4 3) "x" 1 (by decide)

/-- C8 counterexample: `new 0 3` allocates one word, not `ceil(0 / 64) = 0` words,
    so the claimed exact-ceiling allocation fails at `num_bits = 0`. -/
theorem storage_size_cex : (BloomFilter.new 0 3).bit_set.length ≠ (0 + 63) / 64 := by
  decide

/-- C8 amended: `new` allocates `max (ceil_f64 (num_bits / 64)) 1` zero words,
    where the ceiling is computed through `f64` (round-to-nearest-even cast of
    `num_bits`). For `1 ≤ num_bits ≤ 2^53` this equals the exact ceiling
    `ceil (num_bits / 64)`; beyond, it can differ — at `num_bits = 2^53 + 1` the
    source allocates `2^47` words while the exact ceiling is `2^47 + 1`. No
    successful `add` changes the word-vector length, `num_bits`, or `hash_count`. -/
theorem storage_size_invariant (n k : Nat) :
    (BloomFilter.new n k).bit_set = List.replicate (bloomSize n) 0 ∧
    (1 ≤ n → n ≤ 2 ^ 53 → (BloomFilter.new n k).bit_set.length = (n + 63) / 64) ∧
    (bloomSize (2 ^ 53 + 1) = 2 ^ 47 ∧ (2 ^ 53 + 1 + 63) / 64 = 2 ^ 47 + 1) ∧
    (∀ (f g : BloomFilter) (x : String), f.add x = some g →
      g.bit_set.length = f.bit_set.length ∧ g.num_bits = f.num_bits ∧
        g.hash_functions = f.hash_functions) := by
  refine ⟨rfl, ?_, by decide, ?_⟩
  · intro hn hsmall
    simp only [BloomFilter.new, bloomSize, List.length_replicate, roundF64_of_le hsmall]
    omega
  · intro f g x h
    exact add_components h

/-- C8 amended witness: at `new 64 1` the length is the exact ceiling, and a
    successful `add` (here on a zero-probe filter) preserves all three fields. -/
theorem storage_size_invariant_witness :
    (BloomFilter.new 64 1).bit_set.length = (64 + 63) / 64 ∧
    ((BloomFilter.new 1 0).bit_set.length = (BloomFilter.new 1 0).bit_set.length ∧
      (BloomFilter.new 1 0).num_bits = (BloomFilter.new 1 0).num_bits ∧
      (BloomFilter.new 1 0).hash_functions = (BloomFilter.new 1 0).hash_functions) :=
  ⟨(storage_size_invariant 64 1).2.1 (by decide) (by decide),
   (storage_size_invariant 1 0).2.2.2 (BloomFilter.new 1 0) (BloomFilter.new 1 0) "x" rfl⟩

/-- C9: degenerate 1-bit boundary. After `new 1 1` and `add "x"`, `might_contain`
    returns `true` for every possible key: the single bit is set and every key's
    sole probe position reduces to bit 0. -/
theorem degenerate_one_bit_saturation (key : String) :
    ((BloomFilter.new 1 1).add "x").bind (fun g => g.might_contain key) = some true := by
  have h1 : (BloomFilter.new 1 1).add "x" = some ⟨[1], 1, 1⟩ := by decide
  rw [h1, Option.some_bind]
  rw [might_contain_eq ⟨[1], 1, 1⟩ key (by decide)]
  have hall : ∀ j, j < (⟨[1], 1, 1⟩ : BloomFilter).hash_functions →
      (⟨[1], 1, 1⟩ : BloomFilter).probeBit key j = true := by
    intro j hj
    have hj0 : j = 0 := by
      simp only [BloomFilter.hash_functions] at hj
      omega
    subst hj0
    have hidx : (⟨[1], 1, 1⟩ : BloomFilter).bitIndex key 0 = 0 := Nat.mod_one _
    rw [BloomFilter.probeBit, hidx]
    decide
  rw [decide_eq_true hall]

/-- C10: zero-probe edge case. Any filter whose `hash_functions` is 0 — which the
    constructor accepts without validation — answers `might_contain = true` for every
    key (even with no insertions), and `add` returns the state unchanged. -/
theorem zero_hash_functions (f : BloomFilter) (key : String)
    (h : f.hash_functions = 0) :
    f.might_contain key = some true ∧ f.add key = some f := by
  obtain ⟨bs, nb, k⟩ := f
  have hk : k = 0 := h
  subst hk
  exact ⟨rfl, rfl⟩

/-- C10 witness: the freshly constructed `new 7 0` already answers `true` for `"a"`
    and `add` leaves it untouched. -/
theorem zero_hash_functions_witness :
    (BloomFilter.new 7 0).might_contain "a" = some true ∧
      (BloomFilter.new 7 0).add "a" = some (BloomFilter.new 7 0) :=
  zero_hash_functions (BloomFilter.new 7 0) "a" (by decide)

end SpiderUtil
